import Mathlib

/-!
A verification development of the lldb-eval expression interpreter core.

The repository ships the interpreter's UB-detection test suite; the
interpreter implementation itself (the Value/Type model, the usual
arithmetic conversions and the per-node UB classification of eval.cc)
is not part of the available sources, so the definitions below are
modelled from the specification (spec.md sections 3, 4.1, 4.2), with
the pointer-difference rule refined by the repository's own test
expectations (TestInvalidPtrDiff) where the specification and the test
suite disagree.
-/

namespace LldbEval

/-- Modelled from the spec: the UbStatus enumeration of section 3,
exactly Ok plus six UB kinds. -/
inductive UbStatus where
  | ok
  | divisionByZero
  | divisionByMinusOne
  | invalidCast
  | invalidShift
  | nullptrArithmetic
  | invalidPtrDiff
deriving DecidableEq

/-- Modelled from the spec: the latched-status accumulator of sections
3 and 4.2 - a status only ever transitions from Ok to non-Ok and is
never overwritten once set. -/
def latch (cur new : UbStatus) : UbStatus :=
  if cur = UbStatus.ok then new else cur

/-- Modelled from the spec: the structural type model of section 3,
restricted to the scalar and pointer types the UB classification rules
consume. An integer scalar carries bit width and signedness, a
floating scalar its single/double kind, and a pointer the byte size of
its pointee. -/
inductive CType where
  | integer (width : Nat) (signed : Bool)
  | floating (double : Bool)
  | pointer (pointeeSize : Nat)
deriving DecidableEq

/-- Modelled from the spec: a floating-point quantity as the UB rules
of section 4.2 observe it - NaN (quiet or signaling behave alike),
a signed infinity, or a finite value. -/
inductive FpVal where
  | nan
  | inf (neg : Bool)
  | finite (x : ℚ)
deriving DecidableEq

/-- Modelled from the spec: the Value payload of section 3 - integer
bits (low width bits meaningful), a floating value, or a target
address. -/
inductive Payload where
  | intVal (bits : Nat)
  | fpVal (v : FpVal)
  | ptrVal (addr : Nat)
deriving DecidableEq

/-- Modelled from the spec: a typed Value (section 3). -/
structure Value where
  type : CType
  payload : Payload
deriving DecidableEq

/-- Well-formedness of a Value: the payload kind matches the type, the
integer bits fit the width, addresses fit 64 bits, and widths and
pointee sizes are positive. -/
def Value.WF : Value → Prop
  | ⟨CType.integer w _, Payload.intVal b⟩ => 1 ≤ w ∧ b < 2 ^ w
  | ⟨CType.floating _, Payload.fpVal _⟩ => True
  | ⟨CType.pointer s, Payload.ptrVal a⟩ => 1 ≤ s ∧ a < 2 ^ 64
  | _ => False

/-- Wrap an integer to the low w bits (two's complement storage). -/
def toBits (w : Nat) (i : Int) : Nat := (i % ((2 : Int) ^ w)).toNat

/-- Read a bit pattern back as the signed or unsigned integer it
represents in width w. -/
def intOfBits (w : Nat) (s : Bool) (b : Nat) : Int :=
  if s = true ∧ 2 ^ (w - 1) ≤ b then (b : Int) - (2 : Int) ^ w else (b : Int)

/-- Minimum representable value of an integer type. -/
def intMin (w : Nat) (s : Bool) : Int :=
  if s = true then -((2 : Int) ^ (w - 1)) else 0

/-- Maximum representable value of an integer type. -/
def intMax (w : Nat) (s : Bool) : Int :=
  if s = true then (2 : Int) ^ (w - 1) - 1 else (2 : Int) ^ w - 1

/-- Truncation toward zero of a rational, the rounding the float-to-int
cast rule of section 4.2 uses. -/
def ratTrunc (x : ℚ) : Int := Int.tdiv x.num x.den

/-- Modelled from the spec: integer promotion (section 4.1) - sub-int
integer types widen to signed int (width 32), preserving value. -/
def promote : CType → CType
  | CType.integer w s =>
      if w < 32 then CType.integer 32 true else CType.integer w s
  | t => t

/-- Modelled from the spec: usual arithmetic conversion (section 4.1).
Floating operands dominate (the wider floating kind wins); otherwise
both operands are promoted, the lower rank converts to the higher, and
at equal rank signed converts to unsigned. Defined only on arithmetic
types. -/
def uac : CType → CType → Option CType
  | CType.floating d1, CType.floating d2 => some (CType.floating (d1 || d2))
  | CType.floating d1, CType.integer _ _ => some (CType.floating d1)
  | CType.integer _ _, CType.floating d2 => some (CType.floating d2)
  | CType.integer w1 s1, CType.integer w2 s2 =>
      match promote (CType.integer w1 s1), promote (CType.integer w2 s2) with
      | CType.integer pw1 ps1, CType.integer pw2 ps2 =>
          if pw1 = pw2 then some (CType.integer pw1 (ps1 && ps2))
          else if pw1 < pw2 then some (CType.integer pw2 ps2)
          else some (CType.integer pw1 ps1)
      | _, _ => none
  | _, _ => none

/-- Floating negation in the FpVal model. -/
def fpNeg : FpVal → FpVal
  | FpVal.nan => FpVal.nan
  | FpVal.inf s => FpVal.inf (!s)
  | FpVal.finite x => FpVal.finite (-x)

/-- Floating addition in the FpVal model (NaN propagates, opposite
infinities give NaN). -/
def fpAdd : FpVal → FpVal → FpVal
  | FpVal.nan, _ => FpVal.nan
  | _, FpVal.nan => FpVal.nan
  | FpVal.inf s1, FpVal.inf s2 => if s1 = s2 then FpVal.inf s1 else FpVal.nan
  | FpVal.inf s1, FpVal.finite _ => FpVal.inf s1
  | FpVal.finite _, FpVal.inf s2 => FpVal.inf s2
  | FpVal.finite x, FpVal.finite y => FpVal.finite (x + y)

/-- Floating subtraction in the FpVal model. -/
def fpSub (a b : FpVal) : FpVal := fpAdd a (fpNeg b)

/-- Modelled from the spec: floating division (section 4.2) - division
by a floating zero is not UB and yields infinity (or NaN for 0/0). -/
def fpDiv : FpVal → FpVal → FpVal
  | FpVal.nan, _ => FpVal.nan
  | _, FpVal.nan => FpVal.nan
  | FpVal.inf _, FpVal.inf _ => FpVal.nan
  | FpVal.inf s1, FpVal.finite y => FpVal.inf (s1 != decide (y < 0))
  | FpVal.finite _, FpVal.inf _ => FpVal.finite 0
  | FpVal.finite x, FpVal.finite y =>
      if y = 0 then
        (if x = 0 then FpVal.nan else FpVal.inf (decide (x < 0)))
      else FpVal.finite (x / y)

/-- Modelled from the spec: floating remainder - a zero divisor yields
NaN, never a UB classification. -/
def fpRem : FpVal → FpVal → FpVal
  | FpVal.finite x, FpVal.finite y =>
      if y = 0 then FpVal.nan
      else FpVal.finite (x - y * ((ratTrunc (x / y) : Int) : ℚ))
  | _, _ => FpVal.nan

/-- Binary operators the UB classification rules concern. -/
inductive BinOp where
  | add
  | sub
  | div
  | rem
  | shl
  | shr
deriving DecidableEq

/-- Modelled from the spec: the fragment of the typed AST (section 3)
that the UB claims exercise. The addrOfIndex node is the composite
AddressOf(ArrayIndex) form: it computes the element address without
reading target memory and without any UB classification. -/
inductive Expr where
  | intLit (w : Nat) (s : Bool) (bits : Nat)
  | fpLit (double : Bool) (v : FpVal)
  | var (name : String)
  | cast (t : CType) (e : Expr)
  | bin (op : BinOp) (l r : Expr)
  | addrOfIndex (p k : Expr)
deriving DecidableEq

/-- Evaluation context: identifier values provided by the external
debugger context (section 4.3). -/
def Ctx : Type := String → Option Value

/-- The empty context. -/
def ctxEmpty : Ctx := fun _ => none

/-- Convert an arithmetic Value to the floating model (integers convert
exactly). -/
def toFp : Value → Option FpVal
  | ⟨CType.floating _, Payload.fpVal fv⟩ => some fv
  | ⟨CType.integer w s, Payload.intVal b⟩ =>
      some (FpVal.finite ((intOfBits w s b : Int) : ℚ))
  | _ => none

/-- Convert an integer Value to its mathematical value in the converted
type of width w and signedness s. -/
def toIntIn (w : Nat) (s : Bool) : Value → Option Int
  | ⟨CType.integer w0 s0, Payload.intVal b⟩ =>
      some (intOfBits w s (toBits w (intOfBits w0 s0 b)))
  | _ => none

/-- Modelled from the spec: the classification of integer division and
remainder (section 4.2) on the converted operand values - divisor zero
is DivisionByZero; signed minimum divided by minus one is
DivisionByMinusOne; everything else is Ok. -/
def divCls (w : Nat) (s : Bool) (x y : Int) : UbStatus :=
  if y = 0 then UbStatus.divisionByZero
  else if s = true ∧ x = -((2 : Int) ^ (w - 1)) ∧ y = -1 then
    UbStatus.divisionByMinusOne
  else UbStatus.ok

/-- Integer arithmetic in the converted type, with its classification.
Division truncates toward zero as in the host language. -/
def intArith (op : BinOp) (w : Nat) (s : Bool) (x y : Int) :
    Option (Value × UbStatus) :=
  match op with
  | BinOp.add =>
      some (⟨CType.integer w s, Payload.intVal (toBits w (x + y))⟩, UbStatus.ok)
  | BinOp.sub =>
      some (⟨CType.integer w s, Payload.intVal (toBits w (x - y))⟩, UbStatus.ok)
  | BinOp.div =>
      some (⟨CType.integer w s, Payload.intVal (toBits w (Int.tdiv x y))⟩,
        divCls w s x y)
  | BinOp.rem =>
      some (⟨CType.integer w s, Payload.intVal (toBits w (Int.tmod x y))⟩,
        divCls w s x y)
  | _ => none

/-- Floating arithmetic (always classified Ok, per section 4.2). -/
def fpArith (op : BinOp) (x y : FpVal) : Option FpVal :=
  match op with
  | BinOp.add => some (fpAdd x y)
  | BinOp.sub => some (fpSub x y)
  | BinOp.div => some (fpDiv x y)
  | BinOp.rem => some (fpRem x y)
  | _ => none

/-- Arithmetic binary operation: apply usual arithmetic conversion,
then compute in the converted type. -/
def arithValue (op : BinOp) (a b : Value) : Option (Value × UbStatus) :=
  match uac a.type b.type with
  | some (CType.floating d) =>
      match toFp a, toFp b with
      | some x, some y =>
          match fpArith op x y with
          | some r => some (⟨CType.floating d, Payload.fpVal r⟩, UbStatus.ok)
          | none => none
      | _, _ => none
  | some (CType.integer w s) =>
      match toIntIn w s a, toIntIn w s b with
      | some x, some y => intArith op w s x y
      | _, _ => none
  | _ => none

/-- Modelled from the spec: shift classification (section 4.2) - the
left operand is integer promoted and the shift is invalid iff the
amount is negative or at least the promoted width; the right operand's
own type never affects the bound. -/
def shiftValue (op : BinOp) (a b : Value) : Option (Value × UbStatus) :=
  match a, b with
  | ⟨CType.integer w1 s1, Payload.intVal ab⟩,
    ⟨CType.integer w2 s2, Payload.intVal bb⟩ =>
      let pw := if w1 < 32 then 32 else w1
      let ps := if w1 < 32 then true else s1
      let x := intOfBits w1 s1 ab
      let k := intOfBits w2 s2 bb
      if k < 0 ∨ (pw : Int) ≤ k then
        some (⟨CType.integer pw ps, Payload.intVal 0⟩, UbStatus.invalidShift)
      else
        let r := match op with
          | BinOp.shl => x * 2 ^ k.toNat
          | _ => Int.fdiv x (2 ^ k.toNat)
        some (⟨CType.integer pw ps, Payload.intVal (toBits pw r)⟩, UbStatus.ok)
  | _, _ => none

/-- Modelled from the spec: pointer plus integer offset (section 4.2) -
classified NullptrArithmetic iff the pointer address is exactly zero
and the offset is nonzero. -/
def ptrAddValue (s : Nat) (pa : Nat) (k : Int) : Value × UbStatus :=
  (⟨CType.pointer s, Payload.ptrVal (toBits 64 ((pa : Int) + k * (s : Int)))⟩,
    if pa = 0 ∧ k ≠ 0 then UbStatus.nullptrArithmetic else UbStatus.ok)

/-- Modelled from the spec: pointer minus integer offset - deliberately
left unclassified (section 4.2), always Ok. -/
def ptrSubIntValue (s : Nat) (pa : Nat) (k : Int) : Value × UbStatus :=
  (⟨CType.pointer s, Payload.ptrVal (toBits 64 ((pa : Int) - k * (s : Int)))⟩,
    UbStatus.ok)

/-- Modelled from the spec, refined by the repository's test suite:
pointer difference of same-pointee pointers. The signed 64-bit byte
distance is divided (truncating) by the pointee size; the operation is
classified InvalidPtrDiff iff the distance is negative and not an
exact multiple of the pointee size. The specification's section 4.2
table omits the sign condition, but the test suite
(TestInvalidPtrDiff) requires a positive non-multiple distance to be
classified Ok, so the sign condition is part of the behaviour. -/
def ptrDiffValue (s : Nat) (pa pb : Nat) : Value × UbStatus :=
  let diff := intOfBits 64 true (toBits 64 ((pa : Int) - (pb : Int)))
  (⟨CType.integer 64 true, Payload.intVal (toBits 64 (Int.tdiv diff (s : Int)))⟩,
    if diff < 0 ∧ diff % (s : Int) ≠ 0 then UbStatus.invalidPtrDiff
    else UbStatus.ok)

/-- Dispatch of a binary operation on evaluated operand values,
returning the result value and the node's own classification. -/
def binValue (op : BinOp) (a b : Value) : Option (Value × UbStatus) :=
  match op with
  | BinOp.shl => shiftValue op a b
  | BinOp.shr => shiftValue op a b
  | BinOp.add =>
      match a, b with
      | ⟨CType.pointer s, Payload.ptrVal pa⟩,
        ⟨CType.integer wk sk, Payload.intVal kb⟩ =>
          some (ptrAddValue s pa (intOfBits wk sk kb))
      | ⟨CType.integer wk sk, Payload.intVal kb⟩,
        ⟨CType.pointer s, Payload.ptrVal pa⟩ =>
          some (ptrAddValue s pa (intOfBits wk sk kb))
      | _, _ => arithValue op a b
  | BinOp.sub =>
      match a, b with
      | ⟨CType.pointer s, Payload.ptrVal pa⟩,
        ⟨CType.integer wk sk, Payload.intVal kb⟩ =>
          some (ptrSubIntValue s pa (intOfBits wk sk kb))
      | ⟨CType.pointer s1, Payload.ptrVal pa⟩,
        ⟨CType.pointer s2, Payload.ptrVal pb⟩ =>
          if s1 = s2 then some (ptrDiffValue s1 pa pb) else none
      | _, _ => arithValue op a b
  | BinOp.div => arithValue op a b
  | BinOp.rem => arithValue op a b

/-- Modelled from the spec: cast evaluation with its classification.
Only the float-to-integer cast ever classifies (InvalidCast for NaN,
infinity, or a truncated value outside the destination's inclusive
range, section 4.2); all other casts are Ok. The out-of-range cast
still produces the naturally wrapped bit pattern, per section 4.2. -/
def castValue (t : CType) (v : Value) : Option (Value × UbStatus) :=
  match t, v with
  | CType.integer w s, ⟨CType.integer w0 s0, Payload.intVal b⟩ =>
      some (⟨CType.integer w s, Payload.intVal (toBits w (intOfBits w0 s0 b))⟩,
        UbStatus.ok)
  | CType.integer w s, ⟨CType.floating _, Payload.fpVal fv⟩ =>
      match fv with
      | FpVal.nan =>
          some (⟨CType.integer w s, Payload.intVal 0⟩, UbStatus.invalidCast)
      | FpVal.inf _ =>
          some (⟨CType.integer w s, Payload.intVal 0⟩, UbStatus.invalidCast)
      | FpVal.finite x =>
          some (⟨CType.integer w s, Payload.intVal (toBits w (ratTrunc x))⟩,
            if ratTrunc x < intMin w s ∨ intMax w s < ratTrunc x then
              UbStatus.invalidCast
            else UbStatus.ok)
  | CType.integer w s, ⟨CType.pointer _, Payload.ptrVal a⟩ =>
      some (⟨CType.integer w s, Payload.intVal (toBits w (a : Int))⟩,
        UbStatus.ok)
  | CType.floating d, ⟨CType.integer w0 s0, Payload.intVal b⟩ =>
      some (⟨CType.floating d,
        Payload.fpVal (FpVal.finite ((intOfBits w0 s0 b : Int) : ℚ))⟩,
        UbStatus.ok)
  | CType.floating d, ⟨CType.floating _, Payload.fpVal fv⟩ =>
      some (⟨CType.floating d, Payload.fpVal fv⟩, UbStatus.ok)
  | CType.pointer s, ⟨CType.integer w0 s0, Payload.intVal b⟩ =>
      some (⟨CType.pointer s, Payload.ptrVal (toBits 64 (intOfBits w0 s0 b))⟩,
        UbStatus.ok)
  | CType.pointer s, ⟨CType.pointer _, Payload.ptrVal a⟩ =>
      some (⟨CType.pointer s, Payload.ptrVal a⟩, UbStatus.ok)
  | _, _ => none

/-- Address computation of the AddressOf(ArrayIndex) composite: base
address plus scaled index, with no UB classification. -/
def indexAddr (p k : Value) : Option Value :=
  match p, k with
  | ⟨CType.pointer s, Payload.ptrVal a⟩,
    ⟨CType.integer w2 s2, Payload.intVal kb⟩ =>
      some ⟨CType.pointer s,
        Payload.ptrVal (toBits 64 ((a : Int) + intOfBits w2 s2 kb * (s : Int)))⟩
  | _, _ => none

/-- Modelled from the spec: the interpreter (section 4.2) - a total
recursive post-order evaluator threading a latched UbStatus. Each node
computes its value from its children's values and latches its own
classification onto the incoming status; the status is never reset.
None signals a statically ill-typed node, which a successful parse
rules out. -/
def evalE (ctx : Ctx) : Expr → UbStatus → Option (Value × UbStatus)
  | Expr.intLit w s b, st =>
      some (⟨CType.integer w s, Payload.intVal (b % 2 ^ w)⟩, st)
  | Expr.fpLit d v, st => some (⟨CType.floating d, Payload.fpVal v⟩, st)
  | Expr.var n, st =>
      match ctx n with
      | some v => some (v, st)
      | none => none
  | Expr.cast t e, st =>
      match evalE ctx e st with
      | some (v, st1) =>
          match castValue t v with
          | some (v2, c) => some (v2, latch st1 c)
          | none => none
      | none => none
  | Expr.bin op l r, st =>
      match evalE ctx l st with
      | some (vl, st1) =>
          match evalE ctx r st1 with
          | some (vr, st2) =>
              match binValue op vl vr with
              | some (v, c) => some (v, latch st2 c)
              | none => none
          | none => none
      | none => none
  | Expr.addrOfIndex p k, st =>
      match evalE ctx p st with
      | some (vp, st1) =>
          match evalE ctx k st1 with
          | some (vk, st2) =>
              match indexAddr vp vk with
              | some v => some (v, st2)
              | none => none
          | none => none
      | none => none

/-- The UbStatus an expression evaluates to from a fresh (Ok) status. -/
def evalStatus (ctx : Ctx) (e : Expr) : Option UbStatus :=
  (evalE ctx e UbStatus.ok).map (fun p => p.2)

/-- The per-node classifications of an expression in post-order: each
node contributes the classification of its own operation, computed
from its children's values. Leaves and the address-of-index composite
contribute nothing. -/
def ubTrace (ctx : Ctx) : Expr → Option (List UbStatus)
  | Expr.intLit _ _ _ => some []
  | Expr.fpLit _ _ => some []
  | Expr.var n =>
      match ctx n with
      | some _ => some []
      | none => none
  | Expr.cast t e =>
      match ubTrace ctx e, evalE ctx e UbStatus.ok with
      | some tr, some (v, _) =>
          match castValue t v with
          | some (_, c) => some (tr ++ [c])
          | none => none
      | _, _ => none
  | Expr.bin op l r =>
      match ubTrace ctx l, ubTrace ctx r,
          evalE ctx l UbStatus.ok, evalE ctx r UbStatus.ok with
      | some trl, some trr, some (vl, _), some (vr, _) =>
          match binValue op vl vr with
          | some (_, c) => some (trl ++ trr ++ [c])
          | none => none
      | _, _, _, _ => none
  | Expr.addrOfIndex p k =>
      match ubTrace ctx p, ubTrace ctx k,
          evalE ctx p UbStatus.ok, evalE ctx k UbStatus.ok with
      | some trp, some trk, some (vp, _), some (vk, _) =>
          match indexAddr vp vk with
          | some _ => some (trp ++ trk)
          | none => none
      | _, _, _, _ => none

/-- Well-formedness of a type: positive integer widths and positive
pointee sizes. -/
def CType.wfb : CType → Bool
  | CType.integer w _ => 1 ≤ w
  | CType.floating _ => true
  | CType.pointer s => 1 ≤ s

/-- Which cast source and target kinds the evaluator supports:
everything except pointer-to-floating and floating-to-pointer. -/
def castKindOk : CType → CType → Bool
  | CType.floating _, CType.pointer _ => false
  | CType.pointer _, CType.floating _ => false
  | _, _ => true

/-- Static type of a binary operation, mirroring the parser's checks
(section 4.1): shifts take integers and keep the promoted left type;
pointer plus or minus integer keeps the pointer type; pointer minus
pointer needs an identical pointee and yields the 64-bit signed
difference type; everything else goes through usual arithmetic
conversion. -/
def binType : BinOp → CType → CType → Option CType
  | BinOp.shl, CType.integer w1 s1, CType.integer _ _ =>
      some (promote (CType.integer w1 s1))
  | BinOp.shr, CType.integer w1 s1, CType.integer _ _ =>
      some (promote (CType.integer w1 s1))
  | BinOp.shl, _, _ => none
  | BinOp.shr, _, _ => none
  | BinOp.add, CType.pointer s, CType.integer _ _ => some (CType.pointer s)
  | BinOp.add, CType.integer _ _, CType.pointer s => some (CType.pointer s)
  | BinOp.sub, CType.pointer s, CType.integer _ _ => some (CType.pointer s)
  | BinOp.sub, CType.pointer s1, CType.pointer s2 =>
      if s1 = s2 then some (CType.integer 64 true) else none
  | _, t1, t2 => uac t1 t2

/-- Static typing of the expression fragment, mirroring the
parser/type-checker contract of section 4.1. -/
def inferType (ctx : Ctx) : Expr → Option CType
  | Expr.intLit w s _ =>
      if 1 ≤ w then some (CType.integer w s) else none
  | Expr.fpLit d _ => some (CType.floating d)
  | Expr.var n =>
      match ctx n with
      | some v => some v.type
      | none => none
  | Expr.cast t e =>
      match inferType ctx e with
      | some te => if t.wfb && castKindOk t te then some t else none
      | none => none
  | Expr.bin op l r =>
      match inferType ctx l, inferType ctx r with
      | some tl, some tr => binType op tl tr
      | _, _ => none
  | Expr.addrOfIndex p k =>
      match inferType ctx p, inferType ctx k with
      | some (CType.pointer s), some (CType.integer _ _) =>
          some (CType.pointer s)
      | _, _ => none

/-- A context is well formed when every value it supplies is. -/
def WFCtx (ctx : Ctx) : Prop :=
  ∀ n v, ctx n = some v → Value.WF v

theorem toBits_lt (w : Nat) (i : Int) : toBits w i < 2 ^ w := by
  have hpos : (0 : Int) < 2 ^ w := by positivity
  have h1 : 0 ≤ i % 2 ^ w := Int.emod_nonneg i (ne_of_gt hpos)
  have h2 : i % 2 ^ w < 2 ^ w := Int.emod_lt_of_pos i hpos
  have h3 : ((toBits w i : Nat) : Int) = i % 2 ^ w := by
    simp [toBits, Int.toNat_of_nonneg h1]
  have h4 : ((toBits w i : Nat) : Int) < ((2 ^ w : Nat) : Int) := by
    rw [h3]; push_cast; exact h2
  exact_mod_cast h4

@[simp] theorem latch_ok_left (st : UbStatus) : latch UbStatus.ok st = st := rfl

@[simp] theorem latch_ok_right (s : UbStatus) : latch s UbStatus.ok = s := by
  unfold latch; split <;> simp_all

theorem latch_assoc (a b c : UbStatus) :
    latch (latch a b) c = latch a (latch b c) := by
  by_cases h : a = UbStatus.ok <;> simp [latch, h]

theorem latch_of_ne (s t : UbStatus) (h : s ≠ UbStatus.ok) :
    latch s t = s := by
  simp [latch, h]

theorem foldl_latch_shift (xs : List UbStatus) (s : UbStatus) :
    xs.foldl latch s = latch s (xs.foldl latch UbStatus.ok) := by
  induction xs generalizing s with
  | nil => simp
  | cons x xs ih =>
      simp only [List.foldl_cons]
      rw [ih (latch s x), ih (latch UbStatus.ok x), latch_ok_left, latch_assoc]

theorem evalE_shift (ctx : Ctx) (e : Expr) (s : UbStatus) :
    evalE ctx e s =
      (evalE ctx e UbStatus.ok).map (fun p => (p.1, latch s p.2)) := by
  induction e generalizing s with
  | intLit w sg b => simp [evalE]
  | fpLit d v => simp [evalE]
  | var n => cases h : ctx n <;> simp [evalE, h]
  | cast t e ih =>
      simp only [evalE]
      rw [ih s]
      cases h : evalE ctx e UbStatus.ok with
      | none => simp
      | some p =>
          obtain ⟨v, st1⟩ := p
          cases hc : castValue t v with
          | none => simp [hc]
          | some q =>
              obtain ⟨v2, c⟩ := q
              simp [hc, latch_assoc]
  | bin op l r ihl ihr =>
      simp only [evalE]
      rw [ihl s]
      cases hl : evalE ctx l UbStatus.ok with
      | none => simp
      | some pl =>
          obtain ⟨vl, st1⟩ := pl
          simp only [Option.map_some', latch_ok_left]
          rw [ihr (latch s st1), ihr st1]
          cases hr : evalE ctx r UbStatus.ok with
          | none => simp
          | some pr =>
              obtain ⟨vr, st2⟩ := pr
              cases hb : binValue op vl vr with
              | none => simp [hb]
              | some q =>
                  obtain ⟨v, c⟩ := q
                  simp [hb, latch_assoc]
  | addrOfIndex p k ihp ihk =>
      simp only [evalE]
      rw [ihp s]
      cases hp : evalE ctx p UbStatus.ok with
      | none => simp
      | some pp =>
          obtain ⟨vp, st1⟩ := pp
          simp only [Option.map_some', latch_ok_left]
          rw [ihk (latch s st1), ihk st1]
          cases hk : evalE ctx k UbStatus.ok with
          | none => simp
          | some pk =>
              obtain ⟨vk, st2⟩ := pk
              cases hi : indexAddr vp vk with
              | none => simp [hi]
              | some v => simp [hi, latch_assoc]

theorem evalE_trace (ctx : Ctx) (e : Expr) (v : Value) (st : UbStatus)
    (h : evalE ctx e UbStatus.ok = some (v, st)) :
    ∃ tr, ubTrace ctx e = some tr ∧ st = tr.foldl latch UbStatus.ok := by
  induction e generalizing v st with
  | intLit w sg b =>
      simp only [evalE, Option.some.injEq, Prod.mk.injEq] at h
      exact ⟨[], rfl, h.2.symm⟩
  | fpLit d fv =>
      simp only [evalE, Option.some.injEq, Prod.mk.injEq] at h
      exact ⟨[], rfl, h.2.symm⟩
  | var n =>
      cases hn : ctx n with
      | none => simp [evalE, hn] at h
      | some v0 =>
          simp only [evalE, hn, Option.some.injEq, Prod.mk.injEq] at h
          exact ⟨[], by simp [ubTrace, hn], h.2.symm⟩
  | cast t e ih =>
      cases he : evalE ctx e UbStatus.ok with
      | none => simp [evalE, he] at h
      | some p =>
          obtain ⟨v1, st1⟩ := p
          cases hc : castValue t v1 with
          | none => simp [evalE, he, hc] at h
          | some q =>
              obtain ⟨v2, c⟩ := q
              simp only [evalE, he, hc, Option.some.injEq,
                Prod.mk.injEq] at h
              obtain ⟨hv, hst⟩ := h
              obtain ⟨tr1, htr1, hst1⟩ := ih _ _ he
              refine ⟨tr1 ++ [c], by simp [ubTrace, htr1, he, hc], ?_⟩
              rw [List.foldl_append, ← hst1, ← hst]
              simp
  | bin op l r ihl ihr =>
      cases hl : evalE ctx l UbStatus.ok with
      | none => simp [evalE, hl] at h
      | some pl =>
          obtain ⟨vl, st1⟩ := pl
          simp only [evalE, hl, evalE_shift ctx r st1] at h
          cases hr : evalE ctx r UbStatus.ok with
          | none => simp [hr] at h
          | some pr =>
              obtain ⟨vr, st2⟩ := pr
              cases hb : binValue op vl vr with
              | none => simp [hr, hb] at h
              | some q =>
                  obtain ⟨v0, c⟩ := q
                  simp only [hr, hb, Option.map_some', Option.some.injEq,
                    Prod.mk.injEq] at h
                  obtain ⟨hv, hst⟩ := h
                  obtain ⟨trl, htrl, hstl⟩ := ihl _ _ hl
                  obtain ⟨trr, htrr, hstr⟩ := ihr _ _ hr
                  refine ⟨trl ++ trr ++ [c],
                    by simp [ubTrace, htrl, htrr, hl, hr, hb], ?_⟩
                  rw [List.foldl_append, List.foldl_append,
                    foldl_latch_shift trr, ← hstl, ← hstr, ← hst]
                  simp
  | addrOfIndex p k ihp ihk =>
      cases hp : evalE ctx p UbStatus.ok with
      | none => simp [evalE, hp] at h
      | some pp =>
          obtain ⟨vp, st1⟩ := pp
          simp only [evalE, hp, evalE_shift ctx k st1] at h
          cases hk : evalE ctx k UbStatus.ok with
          | none => simp [hk] at h
          | some pk =>
              obtain ⟨vk, st2⟩ := pk
              cases hi : indexAddr vp vk with
              | none => simp [hk, hi] at h
              | some v0 =>
                  simp only [hk, hi, Option.map_some', Option.some.injEq,
                    Prod.mk.injEq] at h
                  obtain ⟨hv, hst⟩ := h
                  obtain ⟨trp, htrp, hstp⟩ := ihp _ _ hp
                  obtain ⟨trk, htrk, hstk⟩ := ihk _ _ hk
                  refine ⟨trp ++ trk,
                    by simp [ubTrace, htrp, htrk, hp, hk, hi], ?_⟩
                  rw [List.foldl_append, foldl_latch_shift trk,
                    ← hstp, ← hstk, ← hst]

/-- C7: the UbStatus is latched - for an evaluation that starts from
any status s, the result equals the Ok-run result with s latched in
front, so a non-Ok incoming status is never reset; and the status of
the Ok run is exactly the first non-Ok classification in the
post-order trace of per-node classifications (an ancestor may still
classify after an Ok descendant). -/
theorem ub_status_latched (ctx : Ctx) (e : Expr) (s : UbStatus)
    (v : Value) (st : UbStatus)
    (h : evalE ctx e UbStatus.ok = some (v, st)) :
    evalE ctx e s = some (v, latch s st) ∧
    ∃ tr, ubTrace ctx e = some tr ∧ st = tr.foldl latch UbStatus.ok := by
  refine ⟨?_, evalE_trace ctx e v st h⟩
  rw [evalE_shift, h]
  rfl

theorem ub_status_latched_witness :
    (evalE ctxEmpty
      (Expr.cast (CType.integer 32 true)
        (Expr.bin BinOp.div (Expr.fpLit true (FpVal.finite 1))
          (Expr.fpLit true (FpVal.finite 0)))) UbStatus.ok =
      some (⟨CType.integer 32 true, Payload.intVal 0⟩, UbStatus.invalidCast)) ∧
    (evalE ctxEmpty
      (Expr.cast (CType.integer 32 true)
        (Expr.bin BinOp.div (Expr.fpLit true (FpVal.finite 1))
          (Expr.fpLit true (FpVal.finite 0)))) UbStatus.divisionByZero =
      some (⟨CType.integer 32 true, Payload.intVal 0⟩,
        latch UbStatus.divisionByZero UbStatus.invalidCast) ∧
     ∃ tr, ubTrace ctxEmpty
        (Expr.cast (CType.integer 32 true)
          (Expr.bin BinOp.div (Expr.fpLit true (FpVal.finite 1))
            (Expr.fpLit true (FpVal.finite 0)))) = some tr ∧
        UbStatus.invalidCast = tr.foldl latch UbStatus.ok) :=
  ⟨by decide, ub_status_latched ctxEmpty _ UbStatus.divisionByZero _ _ (by decide)⟩

/-- C9: evaluation is deterministic - the same typed AST against the
same context, from the same initial status, yields the identical Value
payload and the identical UbStatus. -/
theorem eval_deterministic (ctx ctx' : Ctx) (e e' : Expr) (s : UbStatus)
    (hc : ctx = ctx') (he : e = e') :
    evalE ctx e s = evalE ctx' e' s := by
  subst hc
  subst he
  rfl

theorem eval_deterministic_witness :
    ctxEmpty = ctxEmpty ∧ Expr.intLit 32 true 7 = Expr.intLit 32 true 7 ∧
    evalE ctxEmpty (Expr.intLit 32 true 7) UbStatus.ok =
      evalE ctxEmpty (Expr.intLit 32 true 7) UbStatus.ok :=
  ⟨rfl, rfl, eval_deterministic ctxEmpty ctxEmpty _ _ UbStatus.ok rfl rfl⟩

/-- C3: a shift classifies InvalidShift exactly when the shift amount
is negative or at least the bit width of the left operand's
integer-promoted type; the right operand's own type never affects the
bound. -/
theorem invalid_shift_iff (ctx : Ctx) (w1 w2 : Nat) (s1 s2 : Bool)
    (a b : Nat) :
    evalStatus ctx
      (Expr.bin BinOp.shl (Expr.intLit w1 s1 a) (Expr.intLit w2 s2 b)) =
      some (if intOfBits w2 s2 (b % 2 ^ w2) < 0 ∨
          (if w1 < 32 then (32 : Int) else (w1 : Int)) ≤
            intOfBits w2 s2 (b % 2 ^ w2)
        then UbStatus.invalidShift else UbStatus.ok) ∧
    evalStatus ctx
      (Expr.bin BinOp.shr (Expr.intLit w1 s1 a) (Expr.intLit w2 s2 b)) =
      some (if intOfBits w2 s2 (b % 2 ^ w2) < 0 ∨
          (if w1 < 32 then (32 : Int) else (w1 : Int)) ≤
            intOfBits w2 s2 (b % 2 ^ w2)
        then UbStatus.invalidShift else UbStatus.ok) := by
  constructor <;>
  · by_cases hk : intOfBits w2 s2 (b % 2 ^ w2) < 0 ∨
        (if w1 < 32 then (32 : Int) else (w1 : Int)) ≤
          intOfBits w2 s2 (b % 2 ^ w2)
    · simp [evalStatus, evalE, binValue, shiftValue, hk]
    · simp [evalStatus, evalE, binValue, shiftValue, hk]

/-- C4: a cast of a floating value to an integer destination type
classifies InvalidCast exactly for NaN, either infinity, or a finite
value whose truncation toward zero falls outside the destination's
inclusive range; every other finite value, the boundary values
included, classifies Ok. -/
theorem float_to_int_cast_invalid_iff (ctx : Ctx) (w : Nat) (s : Bool)
    (d : Bool) (fv : FpVal) :
    ∃ st,
      evalStatus ctx (Expr.cast (CType.integer w s) (Expr.fpLit d fv)) =
        some st ∧
      (st = UbStatus.invalidCast ∨ st = UbStatus.ok) ∧
      (st = UbStatus.invalidCast ↔
        fv = FpVal.nan ∨ (∃ sg, fv = FpVal.inf sg) ∨
        (∃ x, fv = FpVal.finite x ∧
          (ratTrunc x < intMin w s ∨ intMax w s < ratTrunc x))) := by
  cases fv with
  | nan =>
      refine ⟨UbStatus.invalidCast,
        by simp [evalStatus, evalE, castValue], Or.inl rfl, ?_⟩
      simp
  | inf sg =>
      refine ⟨UbStatus.invalidCast,
        by simp [evalStatus, evalE, castValue], Or.inl rfl, ?_⟩
      simp
  | finite x =>
      by_cases hc : ratTrunc x < intMin w s ∨ intMax w s < ratTrunc x
      · refine ⟨UbStatus.invalidCast,
          by simp [evalStatus, evalE, castValue, hc], Or.inl rfl, ?_⟩
        simp [hc]
      · refine ⟨UbStatus.ok,
          by simp [evalStatus, evalE, castValue, hc], Or.inr rfl, ?_⟩
        simp [hc]

/-- C5: pointer plus integer classifies NullptrArithmetic exactly when
the pointer's runtime address is zero and the offset is nonzero,
however the null value was produced; pointer minus integer never
classifies NullptrArithmetic, and null plus zero is Ok. -/
theorem nullptr_arithmetic_iff (ctx : Ctx) (p q : Expr) (s pa w2 : Nat)
    (s2 : Bool) (kb : Nat)
    (hp : evalE ctx p UbStatus.ok =
      some (⟨CType.pointer s, Payload.ptrVal pa⟩, UbStatus.ok))
    (hq : evalE ctx q UbStatus.ok =
      some (⟨CType.integer w2 s2, Payload.intVal kb⟩, UbStatus.ok)) :
    evalStatus ctx (Expr.bin BinOp.add p q) =
      some (if pa = 0 ∧ intOfBits w2 s2 kb ≠ 0
        then UbStatus.nullptrArithmetic else UbStatus.ok) ∧
    evalStatus ctx (Expr.bin BinOp.sub p q) = some UbStatus.ok := by
  constructor
  · by_cases hz : pa = 0 ∧ intOfBits w2 s2 kb ≠ 0
    · simp [evalStatus, evalE, hp, hq, binValue, ptrAddValue, hz]
    · simp [evalStatus, evalE, hp, hq, binValue, ptrAddValue, hz]
  · simp [evalStatus, evalE, hp, hq, binValue, ptrSubIntValue]

theorem nullptr_arithmetic_iff_witness :
    (evalE ctxEmpty (Expr.cast (CType.pointer 4) (Expr.intLit 64 false 0))
        UbStatus.ok =
      some (⟨CType.pointer 4, Payload.ptrVal 0⟩, UbStatus.ok)) ∧
    (evalE ctxEmpty (Expr.intLit 32 true 4) UbStatus.ok =
      some (⟨CType.integer 32 true, Payload.intVal 4⟩, UbStatus.ok)) ∧
    (evalStatus ctxEmpty
        (Expr.bin BinOp.add
          (Expr.cast (CType.pointer 4) (Expr.intLit 64 false 0))
          (Expr.intLit 32 true 4)) =
      some (if (0 : Nat) = 0 ∧ intOfBits 32 true 4 ≠ 0
        then UbStatus.nullptrArithmetic else UbStatus.ok) ∧
     evalStatus ctxEmpty
        (Expr.bin BinOp.sub
          (Expr.cast (CType.pointer 4) (Expr.intLit 64 false 0))
          (Expr.intLit 32 true 4)) = some UbStatus.ok) :=
  ⟨by decide, by decide,
    nullptr_arithmetic_iff ctxEmpty _ _ 4 0 32 true 4 (by decide) (by decide)⟩

/-- C10: taking the address of an array subscript on a null pointer is
never classified - the address-of-index composite evaluates Ok for
every index, including a nonzero one - although adding the same
nonzero index to the same null pointer classifies NullptrArithmetic. -/
theorem addr_of_index_on_null_ok (ctx : Ctx) (p q : Expr) (s w2 : Nat)
    (s2 : Bool) (kb : Nat)
    (hp : evalE ctx p UbStatus.ok =
      some (⟨CType.pointer s, Payload.ptrVal 0⟩, UbStatus.ok))
    (hq : evalE ctx q UbStatus.ok =
      some (⟨CType.integer w2 s2, Payload.intVal kb⟩, UbStatus.ok)) :
    evalStatus ctx (Expr.addrOfIndex p q) = some UbStatus.ok ∧
    (intOfBits w2 s2 kb ≠ 0 →
      evalStatus ctx (Expr.bin BinOp.add p q) =
        some UbStatus.nullptrArithmetic) := by
  constructor
  · simp [evalStatus, evalE, hp, hq, indexAddr]
  · intro hk
    simp [evalStatus, evalE, hp, hq, binValue, ptrAddValue, hk]

theorem addr_of_index_on_null_ok_witness :
    (evalE ctxEmpty (Expr.cast (CType.pointer 4) (Expr.intLit 64 false 0))
        UbStatus.ok =
      some (⟨CType.pointer 4, Payload.ptrVal 0⟩, UbStatus.ok)) ∧
    (evalE ctxEmpty (Expr.intLit 32 true 1) UbStatus.ok =
      some (⟨CType.integer 32 true, Payload.intVal 1⟩, UbStatus.ok)) ∧
    (evalStatus ctxEmpty
        (Expr.addrOfIndex
          (Expr.cast (CType.pointer 4) (Expr.intLit 64 false 0))
          (Expr.intLit 32 true 1)) = some UbStatus.ok ∧
     (intOfBits 32 true 1 ≠ 0 →
       evalStatus ctxEmpty
          (Expr.bin BinOp.add
            (Expr.cast (CType.pointer 4) (Expr.intLit 64 false 0))
            (Expr.intLit 32 true 1)) =
         some UbStatus.nullptrArithmetic)) :=
  ⟨by decide, by decide,
    addr_of_index_on_null_ok ctxEmpty _ _ 4 32 true 1 (by decide) (by decide)⟩

/-- C1, counterexample to the claim as stated: with pointee size 4 and
addresses 7 and 6, the byte distance 1 is not a multiple of 4, yet the
pointer difference evaluates with status Ok rather than
InvalidPtrDiff (the repository's TestInvalidPtrDiff requires exactly
this outcome for a positive non-multiple distance). -/
theorem ptr_diff_mod_counterexample :
    evalStatus ctxEmpty
      (Expr.bin BinOp.sub
        (Expr.cast (CType.pointer 4) (Expr.intLit 64 false 7))
        (Expr.cast (CType.pointer 4) (Expr.intLit 64 false 6))) =
      some UbStatus.ok ∧
    ((7 : Int) - 6) % 4 ≠ 0 ∧
    UbStatus.ok ≠ UbStatus.invalidPtrDiff :=
  ⟨by decide, by decide, by decide⟩

/-- C1 (amended): pointer difference of same-pointee-size pointers
classifies InvalidPtrDiff exactly when the signed byte distance
address(p) minus address(q) is negative and not an exact multiple of
the pointee size; a nonnegative distance or an exact multiple
classifies Ok, even when the operands themselves are misaligned. -/
theorem ptr_diff_classification (ctx : Ctx) (p q : Expr) (s pa pb : Nat)
    (hp : evalE ctx p UbStatus.ok =
      some (⟨CType.pointer s, Payload.ptrVal pa⟩, UbStatus.ok))
    (hq : evalE ctx q UbStatus.ok =
      some (⟨CType.pointer s, Payload.ptrVal pb⟩, UbStatus.ok)) :
    evalStatus ctx (Expr.bin BinOp.sub p q) =
      some (if intOfBits 64 true (toBits 64 ((pa : Int) - (pb : Int))) < 0 ∧
          intOfBits 64 true (toBits 64 ((pa : Int) - (pb : Int))) % (s : Int) ≠ 0
        then UbStatus.invalidPtrDiff else UbStatus.ok) := by
  by_cases hd : intOfBits 64 true (toBits 64 ((pa : Int) - (pb : Int))) < 0 ∧
      intOfBits 64 true (toBits 64 ((pa : Int) - (pb : Int))) % (s : Int) ≠ 0
  · simp [evalStatus, evalE, hp, hq, binValue, ptrDiffValue, hd]
  · simp [evalStatus, evalE, hp, hq, binValue, ptrDiffValue, hd]

theorem ptr_diff_classification_witness :
    (evalE ctxEmpty (Expr.cast (CType.pointer 4) (Expr.intLit 64 false 4))
        UbStatus.ok =
      some (⟨CType.pointer 4, Payload.ptrVal 4⟩, UbStatus.ok)) ∧
    (evalE ctxEmpty (Expr.cast (CType.pointer 4) (Expr.intLit 64 false 10))
        UbStatus.ok =
      some (⟨CType.pointer 4, Payload.ptrVal 10⟩, UbStatus.ok)) ∧
    evalStatus ctxEmpty
      (Expr.bin BinOp.sub
        (Expr.cast (CType.pointer 4) (Expr.intLit 64 false 4))
        (Expr.cast (CType.pointer 4) (Expr.intLit 64 false 10))) =
      some (if intOfBits 64 true (toBits 64 (((4 : Nat) : Int) - ((10 : Nat) : Int))) < 0 ∧
          intOfBits 64 true (toBits 64 (((4 : Nat) : Int) - ((10 : Nat) : Int))) % ((4 : Nat) : Int) ≠ 0
        then UbStatus.invalidPtrDiff else UbStatus.ok) :=
  ⟨by decide, by decide,
    ptr_diff_classification ctxEmpty _ _ 4 4 10 (by decide) (by decide)⟩

theorem divCls_minus_one_iff (w : Nat) (s : Bool) (x y : Int) :
    (divCls w s x y = UbStatus.divisionByMinusOne ↔
      s = true ∧ x = -((2 : Int) ^ (w - 1)) ∧ y = -1) ∧
    (s = false → y ≠ 0 → divCls w s x y = UbStatus.ok) := by
  constructor
  · unfold divCls
    split_ifs with h1 h2
    · constructor
      · intro h
        exact absurd h (by decide)
      · rintro ⟨_, _, hy⟩
        omega
    · simp [h2]
    · constructor
      · intro h
        exact absurd h (by decide)
      · intro h
        exact absurd h h2
  · intro hs hy
    unfold divCls
    split_ifs with h1 h2
    · exact absurd h1 hy
    · rw [hs] at h2
      simp at h2
    · rfl

theorem evalStatus_divrem (ctx : Ctx) (w1 w2 w : Nat) (s1 s2 s : Bool)
    (a b : Nat)
    (hu : uac (CType.integer w1 s1) (CType.integer w2 s2) =
      some (CType.integer w s)) (op : BinOp)
    (hop : op = BinOp.div ∨ op = BinOp.rem) :
    evalStatus ctx
      (Expr.bin op (Expr.intLit w1 s1 a) (Expr.intLit w2 s2 b)) =
      some (divCls w s
        (intOfBits w s (toBits w (intOfBits w1 s1 (a % 2 ^ w1))))
        (intOfBits w s (toBits w (intOfBits w2 s2 (b % 2 ^ w2))))) := by
  rcases hop with rfl | rfl <;>
    simp [evalStatus, evalE, binValue, arithValue, hu, toIntIn, intArith]

/-- C2: signed integer division or remainder classifies
DivisionByMinusOne exactly when, in the converted operand type, the
dividend equals the type's minimum value and the divisor equals minus
one; when a conversion to an unsigned type applies, a nonzero divisor
always gives Ok. -/
theorem division_by_minus_one_iff (ctx : Ctx) (w1 w2 w : Nat)
    (s1 s2 s : Bool) (a b : Nat)
    (hu : uac (CType.integer w1 s1) (CType.integer w2 s2) =
      some (CType.integer w s)) :
    ∃ st,
      evalStatus ctx
        (Expr.bin BinOp.div (Expr.intLit w1 s1 a) (Expr.intLit w2 s2 b)) =
        some st ∧
      evalStatus ctx
        (Expr.bin BinOp.rem (Expr.intLit w1 s1 a) (Expr.intLit w2 s2 b)) =
        some st ∧
      (st = UbStatus.divisionByMinusOne ↔
        s = true ∧
        intOfBits w s (toBits w (intOfBits w1 s1 (a % 2 ^ w1))) =
          -((2 : Int) ^ (w - 1)) ∧
        intOfBits w s (toBits w (intOfBits w2 s2 (b % 2 ^ w2))) = -1) ∧
      (s = false →
        intOfBits w s (toBits w (intOfBits w2 s2 (b % 2 ^ w2))) ≠ 0 →
        st = UbStatus.ok) := by
  refine ⟨divCls w s
      (intOfBits w s (toBits w (intOfBits w1 s1 (a % 2 ^ w1))))
      (intOfBits w s (toBits w (intOfBits w2 s2 (b % 2 ^ w2)))),
    evalStatus_divrem ctx w1 w2 w s1 s2 s a b hu BinOp.div (Or.inl rfl),
    evalStatus_divrem ctx w1 w2 w s1 s2 s a b hu BinOp.rem (Or.inr rfl),
    (divCls_minus_one_iff w s _ _).1,
    (divCls_minus_one_iff w s _ _).2⟩

theorem division_by_minus_one_iff_witness :
    (uac (CType.integer 32 true) (CType.integer 32 true) =
      some (CType.integer 32 true)) ∧
    (∃ st,
      evalStatus ctxEmpty
        (Expr.bin BinOp.div (Expr.intLit 32 true (2 ^ 31))
          (Expr.intLit 32 true (2 ^ 32 - 1))) = some st ∧
      evalStatus ctxEmpty
        (Expr.bin BinOp.rem (Expr.intLit 32 true (2 ^ 31))
          (Expr.intLit 32 true (2 ^ 32 - 1))) = some st ∧
      (st = UbStatus.divisionByMinusOne ↔
        true = true ∧
        intOfBits 32 true (toBits 32 (intOfBits 32 true (2 ^ 31 % 2 ^ 32))) =
          -((2 : Int) ^ (32 - 1)) ∧
        intOfBits 32 true (toBits 32 (intOfBits 32 true ((2 ^ 32 - 1) % 2 ^ 32))) =
          -1) ∧
      (true = false →
        intOfBits 32 true (toBits 32 (intOfBits 32 true ((2 ^ 32 - 1) % 2 ^ 32))) ≠ 0 →
        st = UbStatus.ok)) :=
  ⟨by decide,
    division_by_minus_one_iff ctxEmpty 32 32 32 true true true (2 ^ 31)
      (2 ^ 32 - 1) (by decide)⟩

/-- C6: integer division or remainder whose converted divisor is zero
classifies DivisionByZero, while division or remainder with a
floating-point zero divisor - whether the dividend is a floating
literal or an integer operand promoted to floating - classifies Ok
and yields an infinity or NaN result. -/
theorem division_by_zero_classification (ctx : Ctx) (w1 w2 w : Nat)
    (s1 s2 s : Bool) (a b : Nat) (d1 d2 : Bool) (x : ℚ)
    (hu : uac (CType.integer w1 s1) (CType.integer w2 s2) =
      some (CType.integer w s))
    (hz : intOfBits w s (toBits w (intOfBits w2 s2 (b % 2 ^ w2))) = 0) :
    (evalStatus ctx
      (Expr.bin BinOp.div (Expr.intLit w1 s1 a) (Expr.intLit w2 s2 b)) =
      some UbStatus.divisionByZero) ∧
    (evalStatus ctx
      (Expr.bin BinOp.rem (Expr.intLit w1 s1 a) (Expr.intLit w2 s2 b)) =
      some UbStatus.divisionByZero) ∧
    (∀ op, op = BinOp.div ∨ op = BinOp.rem →
      ∃ fv,
        evalE ctx (Expr.bin op (Expr.fpLit d1 (FpVal.finite x))
            (Expr.fpLit d2 (FpVal.finite 0))) UbStatus.ok =
          some (⟨CType.floating (d1 || d2), Payload.fpVal fv⟩, UbStatus.ok) ∧
        (fv = FpVal.nan ∨ ∃ sg, fv = FpVal.inf sg)) ∧
    (∀ op, op = BinOp.div ∨ op = BinOp.rem →
      ∃ fv,
        evalE ctx (Expr.bin op (Expr.intLit w1 s1 a)
            (Expr.fpLit d2 (FpVal.finite 0))) UbStatus.ok =
          some (⟨CType.floating d2, Payload.fpVal fv⟩, UbStatus.ok) ∧
        (fv = FpVal.nan ∨ ∃ sg, fv = FpVal.inf sg)) ∧
    (∀ op, op = BinOp.div ∨ op = BinOp.rem →
      intOfBits w2 s2 (b % 2 ^ w2) = 0 →
      ∃ fv,
        evalE ctx (Expr.bin op (Expr.fpLit d1 (FpVal.finite x))
            (Expr.intLit w2 s2 b)) UbStatus.ok =
          some (⟨CType.floating d1, Payload.fpVal fv⟩, UbStatus.ok) ∧
        (fv = FpVal.nan ∨ ∃ sg, fv = FpVal.inf sg)) := by
  refine ⟨?_, ?_, ?_, ?_, ?_⟩
  · rw [evalStatus_divrem ctx w1 w2 w s1 s2 s a b hu BinOp.div (Or.inl rfl),
      hz]
    simp [divCls]
  · rw [evalStatus_divrem ctx w1 w2 w s1 s2 s a b hu BinOp.rem (Or.inr rfl),
      hz]
    simp [divCls]
  · rintro op (rfl | rfl)
    · by_cases hx : x = 0
      · exact ⟨FpVal.nan,
          by simp [evalE, binValue, arithValue, uac, toFp, fpArith, fpDiv, hx],
          Or.inl rfl⟩
      · exact ⟨FpVal.inf (decide (x < 0)),
          by simp [evalE, binValue, arithValue, uac, toFp, fpArith, fpDiv, hx],
          Or.inr ⟨_, rfl⟩⟩
    · exact ⟨FpVal.nan,
        by simp [evalE, binValue, arithValue, uac, toFp, fpArith, fpRem],
        Or.inl rfl⟩
  · rintro op (rfl | rfl)
    · by_cases hx : ((intOfBits w1 s1 (a % 2 ^ w1) : Int) : ℚ) = 0
      · exact ⟨FpVal.nan,
          by simp [evalE, binValue, arithValue, uac, toFp, fpArith, fpDiv, hx],
          Or.inl rfl⟩
      · exact ⟨FpVal.inf (decide (((intOfBits w1 s1 (a % 2 ^ w1) : Int) : ℚ) < 0)),
          by simp [evalE, binValue, arithValue, uac, toFp, fpArith, fpDiv, hx],
          Or.inr ⟨_, rfl⟩⟩
    · exact ⟨FpVal.nan,
        by simp [evalE, binValue, arithValue, uac, toFp, fpArith, fpRem],
        Or.inl rfl⟩
  · rintro op (rfl | rfl) <;> intro hzi
    · by_cases hx : x = 0
      · exact ⟨FpVal.nan,
          by simp [evalE, binValue, arithValue, uac, toFp, fpArith, fpDiv,
            hzi, hx],
          Or.inl rfl⟩
      · exact ⟨FpVal.inf (decide (x < 0)),
          by simp [evalE, binValue, arithValue, uac, toFp, fpArith, fpDiv,
            hzi, hx],
          Or.inr ⟨_, rfl⟩⟩
    · exact ⟨FpVal.nan,
        by simp [evalE, binValue, arithValue, uac, toFp, fpArith, fpRem, hzi],
        Or.inl rfl⟩

theorem division_by_zero_classification_witness :
    (uac (CType.integer 32 true) (CType.integer 32 true) =
      some (CType.integer 32 true)) ∧
    (intOfBits 32 true (toBits 32 (intOfBits 32 true (0 % 2 ^ 32))) = 0) ∧
    ((evalStatus ctxEmpty
      (Expr.bin BinOp.div (Expr.intLit 32 true 1) (Expr.intLit 32 true 0)) =
      some UbStatus.divisionByZero) ∧
    (evalStatus ctxEmpty
      (Expr.bin BinOp.rem (Expr.intLit 32 true 1) (Expr.intLit 32 true 0)) =
      some UbStatus.divisionByZero) ∧
    (∀ op, op = BinOp.div ∨ op = BinOp.rem →
      ∃ fv,
        evalE ctxEmpty (Expr.bin op (Expr.fpLit true (FpVal.finite 1))
            (Expr.fpLit true (FpVal.finite 0))) UbStatus.ok =
          some (⟨CType.floating (true || true), Payload.fpVal fv⟩,
            UbStatus.ok) ∧
        (fv = FpVal.nan ∨ ∃ sg, fv = FpVal.inf sg)) ∧
    (∀ op, op = BinOp.div ∨ op = BinOp.rem →
      ∃ fv,
        evalE ctxEmpty (Expr.bin op (Expr.intLit 32 true 1)
            (Expr.fpLit true (FpVal.finite 0))) UbStatus.ok =
          some (⟨CType.floating true, Payload.fpVal fv⟩, UbStatus.ok) ∧
        (fv = FpVal.nan ∨ ∃ sg, fv = FpVal.inf sg)) ∧
    (∀ op, op = BinOp.div ∨ op = BinOp.rem →
      intOfBits 32 true (0 % 2 ^ 32) = 0 →
      ∃ fv,
        evalE ctxEmpty (Expr.bin op (Expr.fpLit true (FpVal.finite 1))
            (Expr.intLit 32 true 0)) UbStatus.ok =
          some (⟨CType.floating true, Payload.fpVal fv⟩, UbStatus.ok) ∧
        (fv = FpVal.nan ∨ ∃ sg, fv = FpVal.inf sg))) :=
  ⟨by decide, by decide,
    division_by_zero_classification ctxEmpty 32 32 32 true true true 1 0
      true true 1 (by decide) (by decide)⟩

theorem WF_val_integer {v : Value} {w : Nat} {s : Bool}
    (ht : v.type = CType.integer w s) (hwf : Value.WF v) :
    ∃ b, v = ⟨CType.integer w s, Payload.intVal b⟩ ∧ 1 ≤ w ∧ b < 2 ^ w := by
  obtain ⟨t, p⟩ := v
  dsimp only at ht
  subst ht
  cases p with
  | intVal b => exact ⟨b, rfl, hwf⟩
  | fpVal f => simp [Value.WF] at hwf
  | ptrVal a => simp [Value.WF] at hwf

theorem WF_val_floating {v : Value} {d : Bool}
    (ht : v.type = CType.floating d) (hwf : Value.WF v) :
    ∃ fv, v = ⟨CType.floating d, Payload.fpVal fv⟩ := by
  obtain ⟨t, p⟩ := v
  dsimp only at ht
  subst ht
  cases p with
  | intVal b => simp [Value.WF] at hwf
  | fpVal f => exact ⟨f, rfl⟩
  | ptrVal a => simp [Value.WF] at hwf

theorem WF_val_pointer {v : Value} {s : Nat}
    (ht : v.type = CType.pointer s) (hwf : Value.WF v) :
    ∃ a, v = ⟨CType.pointer s, Payload.ptrVal a⟩ ∧ 1 ≤ s ∧ a < 2 ^ 64 := by
  obtain ⟨t, p⟩ := v
  dsimp only at ht
  subst ht
  cases p with
  | intVal b => simp [Value.WF] at hwf
  | fpVal f => simp [Value.WF] at hwf
  | ptrVal a => exact ⟨a, rfl, hwf⟩

theorem uac_int_int_width {w1 w2 w : Nat} {s1 s2 s : Bool}
    (h : uac (CType.integer w1 s1) (CType.integer w2 s2) =
      some (CType.integer w s)) : 32 ≤ w := by
  simp only [uac, promote] at h
  by_cases h1 : w1 < 32 <;> by_cases h2 : w2 < 32 <;>
    simp only [h1, h2, if_true, if_false] at h
  all_goals try split_ifs at h
  all_goals try simp_all

theorem uac_ne_pointer {t1 t2 T : CType} (h : uac t1 t2 = some T)
    (sp : Nat) : T ≠ CType.pointer sp := by
  cases t1 with
  | integer w1 s1 =>
      cases t2 with
      | integer w2 s2 =>
          simp only [uac, promote] at h
          by_cases h1 : w1 < 32 <;> by_cases h2 : w2 < 32 <;>
            simp only [h1, h2, if_true, if_false] at h
          all_goals try split_ifs at h
          all_goals try rw [Option.some_inj] at h
          all_goals simp [← h]
      | floating d2 => simp [uac] at h; simp [← h]
      | pointer ps => simp [uac] at h
  | floating d1 =>
      cases t2 with
      | integer w2 s2 => simp [uac] at h; simp [← h]
      | floating d2 => simp [uac] at h; simp [← h]
      | pointer ps => simp [uac] at h
  | pointer ps => cases t2 <;> simp [uac] at h

theorem arithValue_total (op : BinOp)
    (hop : op = BinOp.add ∨ op = BinOp.sub ∨ op = BinOp.div ∨ op = BinOp.rem)
    (a b : Value) (T : CType) (hwa : Value.WF a) (hwb : Value.WF b)
    (hu : uac a.type b.type = some T) :
    ∃ v c, arithValue op a b = some (v, c) ∧ v.type = T ∧ Value.WF v := by
  have hfp : ∀ x y : FpVal, ∃ r, fpArith op x y = some r := by
    intro x y
    rcases hop with rfl | rfl | rfl | rfl <;> exact ⟨_, rfl⟩
  have hia : ∀ w s x y, (1 : Nat) ≤ w → ∃ v c, intArith op w s x y = some (v, c) ∧
      Value.type v = CType.integer w s ∧ Value.WF v := by
    intro w s x y hw
    rcases hop with rfl | rfl | rfl | rfl <;>
      exact ⟨_, _, rfl, rfl, hw, toBits_lt _ _⟩
  cases T with
  | pointer sp => exact absurd rfl (uac_ne_pointer hu sp)
  | floating d =>
      have hta : (∃ d0, a.type = CType.floating d0) ∨
          ∃ w0 s0, a.type = CType.integer w0 s0 := by
        cases h1 : a.type with
        | integer w0 s0 => exact Or.inr ⟨w0, s0, rfl⟩
        | floating d0 => exact Or.inl ⟨d0, rfl⟩
        | pointer ps =>
            rw [h1] at hu
            cases h2 : b.type <;> rw [h2] at hu <;> simp [uac] at hu
      have htb : (∃ d0, b.type = CType.floating d0) ∨
          ∃ w0 s0, b.type = CType.integer w0 s0 := by
        cases h1 : b.type with
        | integer w0 s0 => exact Or.inr ⟨w0, s0, rfl⟩
        | floating d0 => exact Or.inl ⟨d0, rfl⟩
        | pointer ps =>
            rw [h1] at hu
            cases h2 : a.type <;> rw [h2] at hu <;> simp [uac] at hu
      have hfa : ∃ fx, toFp a = some fx := by
        rcases hta with ⟨d0, h1⟩ | ⟨w0, s0, h1⟩
        · obtain ⟨fv, rfl⟩ := WF_val_floating h1 hwa
          exact ⟨fv, rfl⟩
        · obtain ⟨bb, rfl, _, _⟩ := WF_val_integer h1 hwa
          exact ⟨_, rfl⟩
      have hfb : ∃ fy, toFp b = some fy := by
        rcases htb with ⟨d0, h1⟩ | ⟨w0, s0, h1⟩
        · obtain ⟨fv, rfl⟩ := WF_val_floating h1 hwb
          exact ⟨fv, rfl⟩
        · obtain ⟨bb, rfl, _, _⟩ := WF_val_integer h1 hwb
          exact ⟨_, rfl⟩
      obtain ⟨fx, hx⟩ := hfa
      obtain ⟨fy, hy⟩ := hfb
      obtain ⟨r, hr⟩ := hfp fx fy
      refine ⟨⟨CType.floating d, Payload.fpVal r⟩, UbStatus.ok, ?_, rfl, trivial⟩
      simp [arithValue, hu, hx, hy, hr]
  | integer w s =>
      have hta : ∃ w0 s0, a.type = CType.integer w0 s0 := by
        cases h1 : a.type with
        | integer w0 s0 => exact ⟨w0, s0, rfl⟩
        | floating d0 =>
            rw [h1] at hu
            cases h2 : b.type <;> rw [h2] at hu <;> simp [uac] at hu
        | pointer ps =>
            rw [h1] at hu
            cases h2 : b.type <;> rw [h2] at hu <;> simp [uac] at hu
      have htb : ∃ w0 s0, b.type = CType.integer w0 s0 := by
        cases h1 : b.type with
        | integer w0 s0 => exact ⟨w0, s0, rfl⟩
        | floating d0 =>
            rw [h1] at hu
            cases h2 : a.type <;> rw [h2] at hu <;> simp [uac] at hu
        | pointer ps =>
            rw [h1] at hu
            cases h2 : a.type <;> rw [h2] at hu <;> simp [uac] at hu
      obtain ⟨wa, sa, h1⟩ := hta
      obtain ⟨wb, sb, h2⟩ := htb
      have hw : 32 ≤ w := by
        rw [h1, h2] at hu
        exact uac_int_int_width hu
      obtain ⟨ba, rfl, _, _⟩ := WF_val_integer h1 hwa
      obtain ⟨bbv, rfl, _, _⟩ := WF_val_integer h2 hwb
      obtain ⟨v, c, hv, hvt, hvw⟩ :=
        hia w s (intOfBits w s (toBits w (intOfBits wa sa ba)))
          (intOfBits w s (toBits w (intOfBits wb sb bbv))) (by omega)
      refine ⟨v, c, ?_, hvt, hvw⟩
      simp only [arithValue] at *
      rw [hu]
      simpa [toIntIn] using hv

theorem shiftValue_total (op : BinOp) (w1 w2 : Nat) (s1 s2 : Bool)
    (ab bb : Nat) (hw1 : 1 ≤ w1) :
    ∃ v c, shiftValue op ⟨CType.integer w1 s1, Payload.intVal ab⟩
        ⟨CType.integer w2 s2, Payload.intVal bb⟩ = some (v, c) ∧
      Value.type v = promote (CType.integer w1 s1) ∧ Value.WF v := by
  by_cases h32 : w1 < 32
  · simp only [shiftValue, h32, if_true]
    split_ifs with hcond
    · exact ⟨_, _, rfl, by simp [promote, h32], by omega, by positivity⟩
    · exact ⟨_, _, rfl, by simp [promote, h32], by omega, toBits_lt _ _⟩
  · simp only [shiftValue, h32, if_false]
    split_ifs with hcond
    · exact ⟨_, _, rfl, by simp [promote, h32], hw1, by positivity⟩
    · exact ⟨_, _, rfl, by simp [promote, h32], hw1, toBits_lt _ _⟩

/-- C8: the interpreter is total on well-typed expressions - for every
expression the type checker accepts against a well-formed context,
evaluation completes and returns a Value of the inferred type together
with a status, even when a UB condition was classified along the way. -/
theorem eval_total_on_welltyped (ctx : Ctx) (e : Expr) (T : CType)
    (hctx : WFCtx ctx) (ht : inferType ctx e = some T) :
    ∃ v st, evalE ctx e UbStatus.ok = some (v, st) ∧
      v.type = T ∧ Value.WF v := by
  induction e generalizing T with
  | intLit w s b =>
      simp only [inferType] at ht
      split_ifs at ht with hw
      rw [Option.some_inj] at ht
      subst ht
      exact ⟨⟨CType.integer w s, Payload.intVal (b % 2 ^ w)⟩, UbStatus.ok,
        rfl, rfl, hw, Nat.mod_lt _ (by positivity)⟩
  | fpLit d fv =>
      simp only [inferType, Option.some_inj] at ht
      subst ht
      exact ⟨⟨CType.floating d, Payload.fpVal fv⟩, UbStatus.ok, rfl, rfl,
        trivial⟩
  | var n =>
      cases hn : ctx n with
      | none => simp [inferType, hn] at ht
      | some v0 =>
          simp only [inferType, hn, Option.some_inj] at ht
          subst ht
          exact ⟨v0, UbStatus.ok, by simp [evalE, hn], rfl, hctx n v0 hn⟩
  | cast t e ih =>
      cases hte : inferType ctx e with
      | none => simp [inferType, hte] at ht
      | some te =>
          simp only [inferType, hte] at ht
          split_ifs at ht with hok
          rw [Option.some_inj] at ht
          subst ht
          simp only [Bool.and_eq_true] at hok
          obtain ⟨hwfb, hck⟩ := hok
          obtain ⟨v1, st1, he1, htype, hwf1⟩ := ih te hte
          have hcv : ∃ v2 c, castValue t v1 = some (v2, c) ∧
              Value.type v2 = t ∧ Value.WF v2 := by
            cases t with
            | integer w s =>
                have hw : 1 ≤ w := by simpa [CType.wfb] using hwfb
                cases te with
                | integer w0 s0 =>
                    obtain ⟨bb, rfl, _, _⟩ := WF_val_integer htype hwf1
                    exact ⟨_, _, rfl, rfl, hw, toBits_lt _ _⟩
                | floating d0 =>
                    obtain ⟨fv, rfl⟩ := WF_val_floating htype hwf1
                    cases fv with
                    | nan => exact ⟨_, _, rfl, rfl, hw, by positivity⟩
                    | inf sg => exact ⟨_, _, rfl, rfl, hw, by positivity⟩
                    | finite x => exact ⟨_, _, rfl, rfl, hw, toBits_lt _ _⟩
                | pointer ps =>
                    obtain ⟨aa, rfl, _, _⟩ := WF_val_pointer htype hwf1
                    exact ⟨_, _, rfl, rfl, hw, toBits_lt _ _⟩
            | floating dt =>
                cases te with
                | integer w0 s0 =>
                    obtain ⟨bb, rfl, _, _⟩ := WF_val_integer htype hwf1
                    exact ⟨_, _, rfl, rfl, trivial⟩
                | floating d0 =>
                    obtain ⟨fv, rfl⟩ := WF_val_floating htype hwf1
                    exact ⟨_, _, rfl, rfl, trivial⟩
                | pointer ps => simp [castKindOk] at hck
            | pointer sp =>
                have hs : 1 ≤ sp := by simpa [CType.wfb] using hwfb
                cases te with
                | integer w0 s0 =>
                    obtain ⟨bb, rfl, _, _⟩ := WF_val_integer htype hwf1
                    exact ⟨_, _, rfl, rfl, hs, toBits_lt _ _⟩
                | floating d0 => simp [castKindOk] at hck
                | pointer ps0 =>
                    obtain ⟨aa, rfl, _, haa⟩ := WF_val_pointer htype hwf1
                    exact ⟨_, _, rfl, rfl, hs, haa⟩
          obtain ⟨v2, c, hcv2, hty2, hwf2⟩ := hcv
          exact ⟨v2, latch st1 c, by simp [evalE, he1, hcv2], hty2, hwf2⟩
  | bin op l r ihl ihr =>
      cases htl : inferType ctx l with
      | none => simp [inferType, htl] at ht
      | some tl =>
          cases htr : inferType ctx r with
          | none => simp [inferType, htl, htr] at ht
          | some tr =>
              simp only [inferType, htl, htr] at ht
              obtain ⟨vl, stl, hel, htypel, hwfl⟩ := ihl tl htl
              obtain ⟨vr, str, her, htyper, hwfr⟩ := ihr tr htr
              have hbv : ∃ v c, binValue op vl vr = some (v, c) ∧
                  Value.type v = T ∧ Value.WF v := by
                cases op with
                | shl =>
                    cases tl with
                    | integer w1 s1 =>
                        cases tr with
                        | integer w2 s2 =>
                            simp only [binType, Option.some_inj] at ht
                            subst ht
                            obtain ⟨ab, rfl, hw1, _⟩ :=
                              WF_val_integer htypel hwfl
                            obtain ⟨bb, rfl, _, _⟩ :=
                              WF_val_integer htyper hwfr
                            simpa [binValue] using
                              shiftValue_total BinOp.shl w1 w2 s1 s2 ab bb hw1
                        | floating d => simp [binType] at ht
                        | pointer ps => simp [binType] at ht
                    | floating d => simp [binType] at ht
                    | pointer ps => simp [binType] at ht
                | shr =>
                    cases tl with
                    | integer w1 s1 =>
                        cases tr with
                        | integer w2 s2 =>
                            simp only [binType, Option.some_inj] at ht
                            subst ht
                            obtain ⟨ab, rfl, hw1, _⟩ :=
                              WF_val_integer htypel hwfl
                            obtain ⟨bb, rfl, _, _⟩ :=
                              WF_val_integer htyper hwfr
                            simpa [binValue] using
                              shiftValue_total BinOp.shr w1 w2 s1 s2 ab bb hw1
                        | floating d => simp [binType] at ht
                        | pointer ps => simp [binType] at ht
                    | floating d => simp [binType] at ht
                    | pointer ps => simp [binType] at ht
                | div =>
                    simp only [binType] at ht
                    obtain ⟨v, c, hv, hty, hwf⟩ :=
                      arithValue_total BinOp.div (Or.inr (Or.inr (Or.inl rfl)))
                        vl vr T hwfl hwfr (by rw [htypel, htyper]; exact ht)
                    exact ⟨v, c, hv, hty, hwf⟩
                | rem =>
                    simp only [binType] at ht
                    obtain ⟨v, c, hv, hty, hwf⟩ :=
                      arithValue_total BinOp.rem
                        (Or.inr (Or.inr (Or.inr rfl)))
                        vl vr T hwfl hwfr (by rw [htypel, htyper]; exact ht)
                    exact ⟨v, c, hv, hty, hwf⟩
                | add =>
                    cases tl with
                    | pointer s0 =>
                        cases tr with
                        | integer w2 s2 =>
                            simp only [binType, Option.some_inj] at ht
                            subst ht
                            obtain ⟨pa, rfl, hs0, _⟩ :=
                              WF_val_pointer htypel hwfl
                            obtain ⟨bb, rfl, _, _⟩ :=
                              WF_val_integer htyper hwfr
                            exact ⟨_, _, rfl, rfl, hs0, toBits_lt _ _⟩
                        | floating d => simp [binType, uac] at ht
                        | pointer ps => simp [binType, uac] at ht
                    | integer w1 s1 =>
                        cases tr with
                        | pointer s0 =>
                            simp only [binType, Option.some_inj] at ht
                            subst ht
                            obtain ⟨ab, rfl, _, _⟩ :=
                              WF_val_integer htypel hwfl
                            obtain ⟨pa, rfl, hs0, _⟩ :=
                              WF_val_pointer htyper hwfr
                            exact ⟨_, _, rfl, rfl, hs0, toBits_lt _ _⟩
                        | integer w2 s2 =>
                            simp only [binType] at ht
                            obtain ⟨ab, rfl, _, _⟩ :=
                              WF_val_integer htypel hwfl
                            obtain ⟨bb, rfl, _, _⟩ :=
                              WF_val_integer htyper hwfr
                            obtain ⟨v, c, hv, hty, hwf⟩ :=
                              arithValue_total BinOp.add (Or.inl rfl) _ _ T
                                hwfl hwfr ht
                            exact ⟨v, c, hv, hty, hwf⟩
                        | floating d2 =>
                            simp only [binType] at ht
                            obtain ⟨ab, rfl, _, _⟩ :=
                              WF_val_integer htypel hwfl
                            obtain ⟨fv, rfl⟩ := WF_val_floating htyper hwfr
                            obtain ⟨v, c, hv, hty, hwf⟩ :=
                              arithValue_total BinOp.add (Or.inl rfl) _ _ T
                                hwfl hwfr ht
                            exact ⟨v, c, hv, hty, hwf⟩
                    | floating d1 =>
                        obtain ⟨fv, rfl⟩ := WF_val_floating htypel hwfl
                        cases tr with
                        | integer w2 s2 =>
                            simp only [binType] at ht
                            obtain ⟨bb, rfl, _, _⟩ :=
                              WF_val_integer htyper hwfr
                            obtain ⟨v, c, hv, hty, hwf⟩ :=
                              arithValue_total BinOp.add (Or.inl rfl) _ _ T
                                hwfl hwfr ht
                            exact ⟨v, c, hv, hty, hwf⟩
                        | floating d2 =>
                            simp only [binType] at ht
                            obtain ⟨fv2, rfl⟩ := WF_val_floating htyper hwfr
                            obtain ⟨v, c, hv, hty, hwf⟩ :=
                              arithValue_total BinOp.add (Or.inl rfl) _ _ T
                                hwfl hwfr ht
                            exact ⟨v, c, hv, hty, hwf⟩
                        | pointer ps => simp [binType, uac] at ht
                | sub =>
                    cases tl with
                    | pointer s0 =>
                        cases tr with
                        | integer w2 s2 =>
                            simp only [binType, Option.some_inj] at ht
                            subst ht
                            obtain ⟨pa, rfl, hs0, _⟩ :=
                              WF_val_pointer htypel hwfl
                            obtain ⟨bb, rfl, _, _⟩ :=
                              WF_val_integer htyper hwfr
                            exact ⟨_, _, rfl, rfl, hs0, toBits_lt _ _⟩
                        | pointer s3 =>
                            simp only [binType] at ht
                            split_ifs at ht with hss
                            rw [Option.some_inj] at ht
                            subst ht
                            subst hss
                            obtain ⟨pa, rfl, hs0, _⟩ :=
                              WF_val_pointer htypel hwfl
                            obtain ⟨pb, rfl, _, _⟩ :=
                              WF_val_pointer htyper hwfr
                            refine ⟨(ptrDiffValue s0 pa pb).1,
                              (ptrDiffValue s0 pa pb).2, ?_, rfl,
                              by omega, toBits_lt _ _⟩
                            simp [binValue]
                        | floating d => simp [binType, uac] at ht
                    | integer w1 s1 =>
                        cases tr with
                        | pointer s0 => simp [binType, uac] at ht
                        | integer w2 s2 =>
                            simp only [binType] at ht
                            obtain ⟨ab, rfl, _, _⟩ :=
                              WF_val_integer htypel hwfl
                            obtain ⟨bb, rfl, _, _⟩ :=
                              WF_val_integer htyper hwfr
                            obtain ⟨v, c, hv, hty, hwf⟩ :=
                              arithValue_total BinOp.sub (Or.inr (Or.inl rfl))
                                _ _ T hwfl hwfr ht
                            exact ⟨v, c, hv, hty, hwf⟩
                        | floating d2 =>
                            simp only [binType] at ht
                            obtain ⟨ab, rfl, _, _⟩ :=
                              WF_val_integer htypel hwfl
                            obtain ⟨fv, rfl⟩ := WF_val_floating htyper hwfr
                            obtain ⟨v, c, hv, hty, hwf⟩ :=
                              arithValue_total BinOp.sub (Or.inr (Or.inl rfl))
                                _ _ T hwfl hwfr ht
                            exact ⟨v, c, hv, hty, hwf⟩
                    | floating d1 =>
                        obtain ⟨fv, rfl⟩ := WF_val_floating htypel hwfl
                        cases tr with
                        | integer w2 s2 =>
                            simp only [binType] at ht
                            obtain ⟨bb, rfl, _, _⟩ :=
                              WF_val_integer htyper hwfr
                            obtain ⟨v, c, hv, hty, hwf⟩ :=
                              arithValue_total BinOp.sub (Or.inr (Or.inl rfl))
                                _ _ T hwfl hwfr ht
                            exact ⟨v, c, hv, hty, hwf⟩
                        | floating d2 =>
                            simp only [binType] at ht
                            obtain ⟨fv2, rfl⟩ := WF_val_floating htyper hwfr
                            obtain ⟨v, c, hv, hty, hwf⟩ :=
                              arithValue_total BinOp.sub (Or.inr (Or.inl rfl))
                                _ _ T hwfl hwfr ht
                            exact ⟨v, c, hv, hty, hwf⟩
                        | pointer ps => simp [binType, uac] at ht
              obtain ⟨v, c, hb, hty, hwf⟩ := hbv
              refine ⟨v, latch (latch stl str) c, ?_, hty, hwf⟩
              simp [evalE, hel, evalE_shift ctx r stl, her, hb]
  | addrOfIndex p k ihp ihk =>
      cases htp : inferType ctx p with
      | none => simp [inferType, htp] at ht
      | some tp =>
          cases htk : inferType ctx k with
          | none => simp [inferType, htp, htk] at ht
          | some tk =>
              cases tp with
              | integer w0 s0 => simp [inferType, htp, htk] at ht
              | floating d0 => simp [inferType, htp, htk] at ht
              | pointer s0 =>
                  cases tk with
                  | floating d0 => simp [inferType, htp, htk] at ht
                  | pointer s3 => simp [inferType, htp, htk] at ht
                  | integer w2 s2 =>
                      simp only [inferType, htp, htk, Option.some_inj] at ht
                      subst ht
                      obtain ⟨vp, stp, hep, htypep, hwfp⟩ := ihp _ htp
                      obtain ⟨vk, stk, hek, htypek, hwfk⟩ := ihk _ htk
                      obtain ⟨pa, rfl, hs0, _⟩ := WF_val_pointer htypep hwfp
                      obtain ⟨bb, rfl, _, _⟩ := WF_val_integer htypek hwfk
                      refine ⟨⟨CType.pointer s0,
                          Payload.ptrVal (toBits 64
                            ((pa : Int) + intOfBits w2 s2 bb * (s0 : Int)))⟩,
                        latch stp stk, ?_, rfl, hs0, toBits_lt _ _⟩
                      simp [evalE, hep, evalE_shift ctx k stp, hek, indexAddr]

theorem WFCtx_ctxEmpty : WFCtx ctxEmpty := by
  intro n v h
  exact nomatch h

theorem eval_total_on_welltyped_witness :
    WFCtx ctxEmpty ∧
    inferType ctxEmpty (Expr.bin BinOp.div (Expr.intLit 32 true 1)
      (Expr.intLit 32 true 0)) = some (CType.integer 32 true) ∧
    ∃ v st, evalE ctxEmpty (Expr.bin BinOp.div (Expr.intLit 32 true 1)
        (Expr.intLit 32 true 0)) UbStatus.ok = some (v, st) ∧
      v.type = CType.integer 32 true ∧ Value.WF v :=
  ⟨WFCtx_ctxEmpty, by decide,
    eval_total_on_welltyped ctxEmpty _ _ WFCtx_ctxEmpty (by decide)⟩

end LldbEval
